import Mathlib

/-!
Verification of the So-Fi acoustic modem core (`src/libsofi/libsofi.c`).

This file gives a shallow embedding of the pieces of the modem that the
claims concern: the CRC-32 routine, the packet/symbol codec realised by
`sofi_send` and `sofi_recv`, the sender real-time state machine
(`sender_callback`), the receiver correlator decision and framer
(`receiver_loop`), and the bounded receive queue
(`recv_queue_enqueue` / `recv_queue_dequeue`).

Machine integers are modelled as `Nat` with explicit truncation
(`% 256`, `% 2 ^ 32`) where the C code truncates; float quantities that
the control flow compares (phase, thresholds, window strengths) are
modelled over `ℚ`, with the source's literal `M_PI` constant.
-/

namespace Sofi

/-! ### CRC-32 (`crc32` in libsofi.c, lines 488-510) -/
/-- One bit-step of the reflected CRC: the body of the inner `for (j...)`
loop of the table construction in `crc32`. -/
def crcStep (x : Nat) : Nat :=
  if x % 2 = 1 then (x / 2) ^^^ 0xedb88320 else x / 2

/-- Iterate `crcStep` `n` times. -/
def crcStepN : Nat → Nat → Nat
  | 0, x => x
  | n + 1, x => crcStepN n (crcStep x)

/-- The table entry `tab[i]` built by `crc32`: eight bit-steps applied to
the index. -/
def crcTab (i : Nat) : Nat := crcStepN 8 i

/-- The byte-processing loop of `crc32`:
`idx = (uint8_t)val ^ (uint8_t)buf[i]; val = tab[idx] ^ (val >> 8)`. -/
def crcFold (val : Nat) : List Nat → Nat
  | [] => val
  | b :: bs => crcFold (crcTab ((val % 256) ^^^ (b % 256)) ^^^ (val >>> 8)) bs

/-- `crc32` from libsofi.c: initial value `0xffffffff`, table-driven byte
loop, final complement (on 32 bits, `~val = val ^^^ 0xffffffff`). -/
def crc32 (bs : List Nat) : Nat := crcFold 0xffffffff bs ^^^ 0xffffffff

/-- Modelled from the spec: reference byte-at-a-time reflected CRC-32 with
polynomial `0xedb88320`, initial value `0xffffffff` and final xor
`0xffffffff`: each byte is xored into the register and eight reflected
bit-steps are applied, with no lookup table. -/
def refCrcFold (val : Nat) : List Nat → Nat
  | [] => val
  | b :: bs => refCrcFold (crcStepN 8 (val ^^^ b)) bs

/-- Modelled from the spec: CRC-32 as described in the spec's on-air
framing section. -/
def refCrc32 (bs : List Nat) : Nat := refCrcFold 0xffffffff bs ^^^ 0xffffffff

/-! ### Packet / symbol codec (`sofi_send`, lines 512-535, and the decode
part of `sofi_recv`, lines 537-563) -/
/-- A So-Fi packet: a length byte and its payload bytes
(`struct sofi_packet`, with the payload restricted to the `len` bytes
that are actually framed). -/
structure Packet where
  len : Nat
  payload : List Nat
  deriving DecidableEq

/-- The reassembly/serialization buffer of `sofi_send`/`sofi_recv` has
`sizeof(struct sofi_packet) + sizeof(uint32_t) = 256 + 4` bytes. -/
def bufSize : Nat := 260

/-- `symbols_per_byte()` from libsofi.c: `CHAR_BIT / symbol_width`. -/
def symbolsPerByte (w : Nat) : Nat := 8 / w

/-- The inner loop of `sofi_send`: emit `n` symbols from byte `c`,
least-significant symbol first: each step takes `c & ((1 << w) - 1)`
and then shifts `c` right by `w`. -/
def symsOfByteAux (w : Nat) : Nat → Nat → List Nat
  | 0, _ => []
  | n + 1, c => (c &&& ((1 <<< w) - 1)) :: symsOfByteAux w n (c >>> w)

/-- All `symbols_per_byte()` symbols of one byte. -/
def symsOfByte (w : Nat) (c : Nat) : List Nat := symsOfByteAux w (symbolsPerByte w) c

/-- Little-endian byte serialization of a 32-bit value (the `memcpy` of
the `uint32_t` CRC on a little-endian host, as the spec's frame layout
states). -/
def le32 (x : Nat) : List Nat :=
  [x % 256, x / 2 ^ 8 % 256, x / 2 ^ 16 % 256, x / 2 ^ 24 % 256]

/-- The framed byte sequence built by `sofi_send`: length byte, the `len`
payload bytes, then the CRC-32 over the length byte and payload, appended
little-endian. -/
def frameBytes (p : Packet) : List Nat :=
  p.len :: p.payload ++ le32 (crc32 (p.len :: p.payload))

/-- `encode`: the raw-message symbol vector built by `sofi_send`. -/
def encode (w : Nat) (p : Packet) : List Nat :=
  (frameBytes p).flatMap (symsOfByte w)

/-- One OR-update of the reassembly buffer (`buf[k] |= c`). -/
def bufOr (buf : Nat → Nat) (k c : Nat) : Nat → Nat :=
  fun k' => if k' = k then buf k ||| c else buf k'

/-- The reassembly loop of `sofi_recv`: symbol `i` contributes
`(unsigned char)(symbol << ((i % symbols_per_byte) * symbol_width))`
OR-ed into cell `i / symbols_per_byte`, guarded by the buffer bound. -/
def reassembleAux (w : Nat) (i : Nat) (buf : Nat → Nat) : List Nat → (Nat → Nat)
  | [] => buf
  | s :: ss =>
      reassembleAux w (i + 1)
        (if i / symbolsPerByte w < bufSize then
          bufOr buf (i / symbolsPerByte w)
            ((s <<< ((i % symbolsPerByte w) * w)) % 256)
        else buf) ss

/-- The zero-initialized reassembly of a raw message into bytes. -/
def reassemble (w : Nat) (syms : List Nat) : Nat → Nat :=
  reassembleAux w 0 (fun _ => 0) syms

/-- The received CRC: the four bytes at offset `1 + len`, combined
little-endian (the `memcpy` into `crc1`). -/
def receivedCrc (buf : Nat → Nat) (len : Nat) : Nat :=
  buf (1 + len) + 2 ^ 8 * buf (2 + len) + 2 ^ 16 * buf (3 + len) +
    2 ^ 24 * buf (4 + len)

/-- `decode`: the per-message body of the `sofi_recv` loop. The message's
symbols are reassembled into bytes, `len` is the first byte, and the
packet is returned iff the received CRC equals the CRC computed over
`buf[0 .. 1+len)`; otherwise the message is dropped (`none`). -/
def decode (w : Nat) (syms : List Nat) : Option Packet :=
  let buf := reassemble w syms
  let len := buf 0
  if receivedCrc buf len = crc32 ((List.range (1 + len)).map buf) then
    some { len := len, payload := (List.range len).map (fun i => buf (1 + i)) }
  else
    none

/-! ### Round-trip development -/
/-- The legal symbol widths (`must be 1, 2, 4, or 8`). -/
def validWidth (w : Nat) : Prop := w = 1 ∨ w = 2 ∨ w = 4 ∨ w = 8

/-- The byte value accumulated while reassembling the symbols that
`symsOfByteAux w n` emits for `c`, starting at in-byte symbol index `j`. -/
def prContrib (w : Nat) : Nat → Nat → Nat → Nat
  | _, 0, _ => 0
  | j, n + 1, c =>
      (((c &&& ((1 <<< w) - 1)) <<< (j * w)) % 256) |||
        prContrib w (j + 1) n (c >>> w)

/-! ### C5: delivered packets are exactly the CRC-valid ones -/
/-- The `for (;;)` loop of `sofi_recv` over successive dequeued raw
messages: the first message that passes the CRC test is delivered as a
packet; a mismatching message is silently dropped (debug log only) and
the loop continues with the next dequeued message. `none` models a run
of messages that never delivers (the real loop keeps blocking). -/
def sofiRecvLoop (w : Nat) : List (List Nat) → Option Packet
  | [] => none
  | m :: ms =>
      match decode w m with
      | some p => some p
      | none => sofiRecvLoop w ms

/-! ### Sender state machine (`sender_callback`, lines 158-215) -/
/-- The states of `enum sender_state`. -/
inductive SendState
  | idle
  | transmitting
  | gap
  deriving DecidableEq

/-- One output sample: the callback writes either the literal `0.f` or
`sinf(phase)`; the `tone` constructor records the phase handed to
`sinf`. -/
inductive Sample
  | silence
  | tone (phase : ℚ)
  deriving DecidableEq

/-- The transmission parameters captured at `sofi_init`, over `ℚ`. -/
structure SenderConfig where
  rate : ℚ
  baud : ℚ
  freqs : Nat → ℚ

/-- The source's literal `M_PI` constant. -/
def mPi : ℚ := 3.14159265359

/-- `interpacket_gap()` from libsofi.c: `2.f / baud`. -/
def interpacketGap (cfg : SenderConfig) : ℚ := 2 / cfg.baud

/-- `struct sender_callback_data`, with the send ring modelled as the
list of queued raw messages (head = current read region) and the phase
over `ℚ`. -/
structure SenderData where
  state : SendState
  ring : List (List Nat)
  msg : List Nat
  index : Nat
  symbol : Nat
  frame : Nat
  phase : ℚ
  deriving DecidableEq

/-- The phase-wrap loop
`while (phase >= 2π) phase -= 2π`: for a nonnegative phase this is
reduction modulo `2π`; a negative phase is left unchanged. -/
def wrapPhase (p : ℚ) : ℚ :=
  if 0 ≤ p then p - (2 * mPi) * ⌊p / (2 * mPi)⌋ else p

/-- The phase advance of one emitted sample:
`phase += (2π * freq) / sample_rate`, then wrap. -/
def phaseStep (cfg : SenderConfig) (sym : Nat) (ph : ℚ) : ℚ :=
  wrapPhase (ph + (2 * mPi * cfg.freqs sym) / cfg.rate)

/-- The `SEND_STATE_TRANSMITTING` body of `sender_callback`, with the
`first` flag of the IDLE fallthrough: when `first` is clear the frame
counter is pre-incremented before the comparison against
`sample_rate / baud`; on expiry the next symbol is loaded, or, past the
last symbol, the state becomes `INTERPACKET_GAP` and `0.f` is emitted;
otherwise `sinf(phase)` is emitted and the phase advanced at the current
symbol's frequency. -/
def senderTransmit (cfg : SenderConfig) (d : SenderData) (first : Bool) :
    SenderData × Sample :=
  let f' := if first then d.frame else d.frame + 1
  if first = true ∨ ((f' : Nat) : ℚ) ≥ cfg.rate / cfg.baud then
    if d.index ≥ d.msg.length then
      ({ d with state := SendState.gap, frame := 0 }, Sample.silence)
    else
      let sym := d.msg.getD d.index 0
      ({ d with symbol := sym, index := d.index + 1, frame := 0,
                phase := phaseStep cfg sym d.phase }, Sample.tone d.phase)
  else
    ({ d with frame := f', phase := phaseStep cfg d.symbol d.phase },
      Sample.tone d.phase)

/-- One iteration of the per-sample loop of `sender_callback`: in IDLE,
silence is emitted unless a raw message is readable, in which case the
message is adopted and the TRANSMITTING body runs with `first` set; in
INTERPACKET_GAP the frame counter is pre-incremented and, once it
reaches `interpacket_gap() * sample_rate`, the ring read index advances
and the state returns to IDLE. -/
def senderStep (cfg : SenderConfig) (d : SenderData) : SenderData × Sample :=
  match d.state with
  | SendState.idle =>
      match d.ring with
      | [] => (d, Sample.silence)
      | m :: _ =>
          senderTransmit cfg
            { d with msg := m, index := 0, state := SendState.transmitting } true
  | SendState.transmitting => senderTransmit cfg d false
  | SendState.gap =>
      if (((d.frame + 1 : Nat)) : ℚ) ≥ interpacketGap cfg * cfg.rate then
        ({ d with frame := d.frame + 1, ring := d.ring.tail,
                  state := SendState.idle }, Sample.silence)
      else
        ({ d with frame := d.frame + 1 }, Sample.silence)

/-- Iterate `senderStep`, collecting the emitted samples. -/
def senderRun (cfg : SenderConfig) (d : SenderData) : Nat → SenderData × List Sample
  | 0 => (d, [])
  | n + 1 =>
      let step := senderStep cfg d
      let rest := senderRun cfg step.1 n
      (rest.1, step.2 :: rest.2)

/-- A concrete configuration: 800 samples/s, 100 baud, flat frequency
table. -/
def gapEntrySenderConfig : SenderConfig :=
  { rate := 800, baud := 100, freqs := fun _ => 440 }

/-- A sender about to finish the last (only) symbol of its message: the
frame counter is at 7 with `sample_rate / baud = 8`, all symbols sent. -/
def gapEntrySenderData : SenderData :=
  { state := SendState.transmitting, ring := [[0]], msg := [0], index := 1,
    symbol := 0, frame := 7, phase := 0 }

/-- A sender in mid-symbol: frame counter 0 of an 8-sample period. -/
def contSenderData : SenderData :=
  { state := SendState.transmitting, ring := [], msg := [0, 0], index := 1,
    symbol := 0, frame := 0, phase := 0 }

/-! ### Receiver framer (`receiver_loop`, lines 293-311) -/
/-- The states of `enum receiver_state`. -/
inductive RecvState
  | listen
  | demodulate
  deriving DecidableEq

/-- The symbol capacity of a raw message:
`(sizeof(struct sofi_packet) + sizeof(uint32_t)) * 8 = 2080` symbols. -/
def rawMsgCap : Nat := 2080

/-- One iteration of the framer switch of `receiver_loop`, on the
classification of the current window (`none` = silence / `symbol == -1`,
`some s` = strongest symbol `s`): in LISTEN a non-silent window zeroes
the message and moves to DEMODULATE; in DEMODULATE silence enqueues the
message and returns to LISTEN, while a symbol is appended when the
message has room. Returns the new state, the new message, and the
enqueued message, if any. -/
def framerStep (st : RecvState) (msg : List Nat) (sym : Option Nat) :
    RecvState × List Nat × Option (List Nat) :=
  match st with
  | RecvState.listen =>
      match sym with
      | some _ => (RecvState.demodulate, [], none)
      | none => (RecvState.listen, msg, none)
  | RecvState.demodulate =>
      match sym with
      | none => (RecvState.listen, msg, some msg)
      | some s =>
          if msg.length < rawMsgCap then (RecvState.demodulate, msg ++ [s], none)
          else (RecvState.demodulate, msg, none)

/-! ### Correlator decision (`receiver_loop`, lines 272-291) -/
/-- The correlation running sum of the window against a reference
waveform `g` (the code's `sin_i` / `cos_i` accumulators):
`Σⱼ g(2π · f · j / fs) · window[j]`. -/
def corrSum (g : ℚ → ℚ) (freq rate : ℚ) (window : List ℚ) : ℚ :=
  (List.range window.length).foldl
    (fun acc (j : Nat) =>
      acc + g (2 * mPi * freq * (j : ℚ) / rate) * window.getD j 0) 0

/-- The strength of one candidate symbol:
`sin_i * sin_i + cos_i * cos_i`, with the host library's `sinf` and
`cosf` taken as parameters. -/
def strengthOf (sinf cosf : ℚ → ℚ) (freq rate : ℚ) (window : List ℚ) : ℚ :=
  corrSum sinf freq rate window * corrSum sinf freq rate window +
    corrSum cosf freq rate window * corrSum cosf freq rate window

/-- The selection loop of `receiver_loop`: `symbol = -1` (`none`) and
`max_strength = 100.f` initially; each candidate whose strength strictly
exceeds the running maximum becomes the selection. -/
def selectLoop (strengths : Nat → ℚ) (n : Nat) : Option Nat × ℚ :=
  (List.range n).foldl
    (fun acc i => if strengths i > acc.2 then (some i, strengths i) else acc)
    (none, 100)

/-- The classification of one window: the surviving `symbol` value. -/
def classifyWindow (sinf cosf : ℚ → ℚ) (freqs : Nat → ℚ) (rate : ℚ)
    (n : Nat) (window : List ℚ) : Option Nat :=
  (selectLoop (fun i => strengthOf sinf cosf (freqs i) rate window) n).1

/-! ### Receive queue (`recv_queue_enqueue` lines 53-73,
`recv_queue_dequeue` lines 75-92) -/
/-- `RECV_QUEUE_CAP`. -/
def recvQueueCap : Nat := 32

/-- The receive queue: `recv_queue` (backing array of `RECV_QUEUE_CAP`
raw messages), `recv_queue_start` and `recv_queue_size`. -/
structure RecvQueue where
  data : Fin 32 → List Nat
  start : Fin 32
  size : Nat

/-- `recv_queue_enqueue`: with room available, copy the message to slot
`(start + size) % RECV_QUEUE_CAP` and grow; on overflow drop the
incoming message (debug log only), leaving the queue unchanged. It never
waits for space. -/
def recvQueueEnqueue (q : RecvQueue) (msg : List Nat) : RecvQueue :=
  if q.size < recvQueueCap then
    { q with
        data := Function.update q.data
          ⟨((q.start : Nat) + q.size) % 32, Nat.mod_lt _ (by norm_num)⟩ msg,
        size := q.size + 1 }
  else q

/-- `recv_queue_dequeue`, past its blocking wait (which requires the
queue to be nonempty): copy out the message at `start`, advance `start`
modulo the capacity, shrink. -/
def recvQueueDequeue (q : RecvQueue) (h : 0 < q.size) : List Nat × RecvQueue :=
  (q.data q.start,
   { q with start := ⟨((q.start : Nat) + 1) % 32, Nat.mod_lt _ (by norm_num)⟩,
            size := q.size - 1 })

/-- The queue contents in order, oldest first. -/
def recvQueueList (q : RecvQueue) : List (List Nat) :=
  (List.range q.size).map
    (fun i => q.data ⟨((q.start : Nat) + i) % 32, Nat.mod_lt _ (by norm_num)⟩)

/-- The empty receive queue. -/
def emptyRecvQueue : RecvQueue :=
  { data := fun _ => [], start := ⟨0, by norm_num⟩, size := 0 }

example : crc32 [0] = 0xd202ef8d := by decide

/-! Equivalence of the table-driven loop with the direct bit-at-a-time
reflected algorithm. -/
lemma xor_div_two (x y : Nat) : (x ^^^ y) / 2 = x / 2 ^^^ y / 2 := by
  apply Nat.eq_of_testBit_eq
  intro i
  simp [Nat.testBit_div_two, Nat.testBit_xor]

lemma xor_even_mod_two (x y : Nat) (hy : y % 2 = 0) : (x ^^^ y) % 2 = x % 2 := by
  have hy0 : y.testBit 0 = false := Nat.mod_two_eq_zero_iff_testBit_zero.mp hy
  have h0 : (x ^^^ y).testBit 0 = x.testBit 0 := by
    rw [Nat.testBit_xor, hy0, Bool.xor_false]
  have h1 : ((x ^^^ y) % 2 = 1) ↔ (x % 2 = 1) := by
    rw [Nat.mod_two_eq_one_iff_testBit_zero, Nat.mod_two_eq_one_iff_testBit_zero, h0]
  omega

lemma crcStep_xor_shiftLeft (a h k : Nat) :
    crcStep (a ^^^ h <<< (k + 1)) = crcStep a ^^^ h <<< k := by
  have heven : (h <<< (k + 1)) % 2 = 0 := by
    rw [Nat.shiftLeft_eq, pow_succ, ← Nat.mul_assoc]
    exact Nat.mul_mod_left _ 2
  have hdiv : (a ^^^ h <<< (k + 1)) / 2 = a / 2 ^^^ h <<< k := by
    rw [xor_div_two]
    congr 1
    rw [Nat.shiftLeft_eq, Nat.shiftLeft_eq, pow_succ, ← Nat.mul_assoc]
    exact Nat.mul_div_cancel _ (by norm_num)
  unfold crcStep
  rw [xor_even_mod_two _ _ heven, hdiv]
  by_cases hp : a % 2 = 1
  · rw [if_pos hp, if_pos hp, Nat.xor_assoc, Nat.xor_comm (h <<< k), ← Nat.xor_assoc]
  · rw [if_neg hp, if_neg hp]

lemma crcStepN_xor_shiftLeft (n a h : Nat) :
    crcStepN n (a ^^^ h <<< n) = crcStepN n a ^^^ h := by
  induction n generalizing a with
  | zero => simp [crcStepN]
  | succ n ih =>
    show crcStepN n (crcStep (a ^^^ h <<< (n + 1))) = crcStepN n (crcStep a) ^^^ h
    rw [crcStep_xor_shiftLeft, ih]

lemma mod_xor_shift_eq (y : Nat) : (y % 256) ^^^ (y >>> 8) <<< 8 = y := by
  have h256 : (256 : Nat) = 2 ^ 8 := by norm_num
  apply Nat.eq_of_testBit_eq
  intro i
  rw [h256]
  simp only [Nat.testBit_xor, Nat.testBit_mod_two_pow, Nat.testBit_shiftLeft,
    Nat.testBit_shiftRight]
  by_cases h : i < 8
  · simp [h, Nat.not_le.mpr h]
  · have h8 : 8 ≤ i := Nat.not_lt.mp h
    simp [h, h8, Nat.add_sub_cancel' h8]

lemma crcStepN8_decompose (y : Nat) :
    crcStepN 8 y = crcStepN 8 (y % 256) ^^^ (y >>> 8) := by
  conv_lhs => rw [← mod_xor_shift_eq y]
  rw [crcStepN_xor_shiftLeft]

lemma xor_small_mod (val b : Nat) (hb : b < 256) :
    (val ^^^ b) % 256 = (val % 256) ^^^ b := by
  have h256 : (256 : Nat) = 2 ^ 8 := by norm_num
  apply Nat.eq_of_testBit_eq
  intro i
  rw [h256]
  simp only [Nat.testBit_xor, Nat.testBit_mod_two_pow]
  by_cases h : i < 8
  · simp [h]
  · have : b.testBit i = false := by
      apply Nat.testBit_lt_two_pow
      calc b < 2 ^ 8 := by omega
        _ ≤ 2 ^ i := Nat.pow_le_pow_right (by norm_num) (by omega)
    simp [h, this]

lemma xor_small_shiftRight (val b : Nat) (hb : b < 256) :
    (val ^^^ b) >>> 8 = val >>> 8 := by
  apply Nat.eq_of_testBit_eq
  intro i
  have : b.testBit (8 + i) = false := by
    apply Nat.testBit_lt_two_pow
    calc b < 2 ^ 8 := by omega
      _ ≤ 2 ^ (8 + i) := Nat.pow_le_pow_right (by norm_num) (by omega)
  simp [Nat.testBit_shiftRight, Nat.testBit_xor, this]

lemma crcFold_eq_refCrcFold (bs : List Nat) (h : ∀ b ∈ bs, b < 256) (val : Nat) :
    crcFold val bs = refCrcFold val bs := by
  induction bs generalizing val with
  | nil => rfl
  | cons b bs ih =>
    have hb : b < 256 := h b (List.mem_cons_self b bs)
    show crcFold (crcTab ((val % 256) ^^^ (b % 256)) ^^^ (val >>> 8)) bs
       = refCrcFold (crcStepN 8 (val ^^^ b)) bs
    rw [ih (fun x hx => h x (List.mem_cons_of_mem b hx))]
    congr 1
    rw [crcStepN8_decompose (val ^^^ b), xor_small_mod _ _ hb,
      xor_small_shiftRight _ _ hb, Nat.mod_eq_of_lt hb]
    rfl

lemma crc32_eq_refCrc32 (bs : List Nat) (h : ∀ b ∈ bs, b < 256) :
    crc32 bs = refCrc32 bs := by
  unfold crc32 refCrc32
  rw [crcFold_eq_refCrcFold bs h]

example : decode 2 (encode 2 { len := 0, payload := [] }) =
    some { len := 0, payload := [] } := by decide

example : (encode 1 { len := 0, payload := [] }).length = 40 := by decide

lemma validWidth_spb_pos {w : Nat} (hw : validWidth w) : 0 < symbolsPerByte w := by
  rcases hw with h | h | h | h <;> subst h <;> decide

lemma symsOfByteAux_length (w n c : Nat) : (symsOfByteAux w n c).length = n := by
  induction n generalizing c with
  | zero => rfl
  | succ n ih => simp [symsOfByteAux, ih]

lemma symsOfByte_length (w c : Nat) : (symsOfByte w c).length = symbolsPerByte w :=
  symsOfByteAux_length ..

lemma reassembleAux_append (w : Nat) (xs ys : List Nat) :
    ∀ (i : Nat) (buf : Nat → Nat),
      reassembleAux w i buf (xs ++ ys)
        = reassembleAux w (i + xs.length) (reassembleAux w i buf xs) ys := by
  induction xs with
  | nil => intro i buf; simp [reassembleAux]
  | cons x xs ih =>
    intro i buf
    show reassembleAux w (i + 1) _ (xs ++ ys) = _
    rw [ih]
    simp only [List.length_cons]
    have h1 : i + 1 + xs.length = i + (xs.length + 1) := by omega
    rw [h1]
    rfl

lemma bufOr_bufOr (buf : Nat → Nat) (k c1 c2 : Nat) :
    bufOr (bufOr buf k c1) k c2 = bufOr buf k (c1 ||| c2) := by
  funext k'
  unfold bufOr
  by_cases h : k' = k <;> simp [h, Nat.or_assoc]

lemma reassembleAux_group (w : Nat) (k : Nat) (hk : k < bufSize) :
    ∀ (n j : Nat), j + n ≤ symbolsPerByte w → ∀ (c : Nat) (buf : Nat → Nat),
      reassembleAux w (k * symbolsPerByte w + j) buf (symsOfByteAux w n c)
        = bufOr buf k (prContrib w j n c) := by
  intro n
  induction n with
  | zero =>
    intro j _ c buf
    funext k'
    simp only [symsOfByteAux, reassembleAux, prContrib, bufOr]
    by_cases h : k' = k <;> simp [h]
  | succ n ih =>
    intro j hj c buf
    have hspb : 0 < symbolsPerByte w := by omega
    have hjlt : j < symbolsPerByte w := by omega
    have hdivk : (k * symbolsPerByte w + j) / symbolsPerByte w = k := by
      rw [Nat.mul_comm k, Nat.mul_add_div hspb, Nat.div_eq_of_lt hjlt]
      omega
    have hmodj : (k * symbolsPerByte w + j) % symbolsPerByte w = j := by
      rw [Nat.mul_comm k, Nat.mul_add_mod, Nat.mod_eq_of_lt hjlt]
    show reassembleAux w (k * symbolsPerByte w + j + 1) _ (symsOfByteAux w n (c >>> w)) = _
    rw [hdivk, hmodj]
    rw [if_pos hk]
    have harg : k * symbolsPerByte w + j + 1 = k * symbolsPerByte w + (j + 1) := by omega
    rw [harg, ih (j + 1) (by omega) (c >>> w) _, bufOr_bufOr]
    rfl

set_option maxRecDepth 4000 in
lemma prContrib_byte {w : Nat} (hw : validWidth w) (c : Nat) (hc : c < 256) :
    prContrib w 0 (symbolsPerByte w) c = c := by
  rcases hw with h | h | h | h <;> subst h <;> revert c hc <;> decide

lemma reassembleAux_bytes {w : Nat} (hw : validWidth w) :
    ∀ (bytes : List Nat) (k0 : Nat) (buf : Nat → Nat),
      (∀ b ∈ bytes, b < 256) → k0 + bytes.length ≤ bufSize →
      (∀ k, k0 ≤ k → buf k = 0) →
      ∀ k, reassembleAux w (k0 * symbolsPerByte w) buf (bytes.flatMap (symsOfByte w)) k
        = if k0 ≤ k ∧ k - k0 < bytes.length then bytes.getD (k - k0) 0 else buf k := by
  intro bytes
  induction bytes with
  | nil =>
    intro k0 buf _ _ _ k
    simp [reassembleAux]
  | cons b bs ih =>
    intro k0 buf hlt hsz hbuf k
    have hb : b < 256 := hlt b (List.mem_cons_self b bs)
    have hk0 : k0 < bufSize := by
      have := bs.length
      simp only [List.length_cons] at hsz
      omega
    rw [List.flatMap_cons, reassembleAux_append, symsOfByte_length]
    have hgrp :
        reassembleAux w (k0 * symbolsPerByte w) buf (symsOfByte w b)
          = bufOr buf k0 b := by
      have := reassembleAux_group w k0 hk0 (symbolsPerByte w) 0 (by omega) b buf
      rw [Nat.add_zero] at this
      rw [symsOfByte, this, prContrib_byte hw b hb]
    rw [hgrp]
    have hnext : k0 * symbolsPerByte w + symbolsPerByte w = (k0 + 1) * symbolsPerByte w := by
      ring
    rw [hnext]
    have hbuf1 : ∀ j, k0 + 1 ≤ j → bufOr buf k0 b j = 0 := by
      intro j hj
      unfold bufOr
      rw [if_neg (by omega)]
      exact hbuf j (by omega)
    have hsz1 : (k0 + 1) + bs.length ≤ bufSize := by
      simp only [List.length_cons] at hsz
      omega
    rw [ih (k0 + 1) (bufOr buf k0 b) (fun x hx => hlt x (List.mem_cons_of_mem b hx)) hsz1 hbuf1 k]
    simp only [List.length_cons]
    by_cases h1 : k0 + 1 ≤ k ∧ k - (k0 + 1) < bs.length
    · rw [if_pos h1, if_pos (by omega)]
      have : k - k0 = (k - (k0 + 1)) + 1 := by omega
      rw [this, List.getD_cons_succ]
    · rw [if_neg h1]
      by_cases h2 : k = k0
      · subst h2
        rw [if_pos (by omega)]
        unfold bufOr
        rw [if_pos rfl, hbuf k (by omega), Nat.zero_or]
        simp
      · rw [if_neg (by omega)]
        unfold bufOr
        rw [if_neg h2]

/-! Bounds and list-access helpers. -/
lemma crcStep_lt (x : Nat) (hx : x < 2 ^ 32) : crcStep x < 2 ^ 32 := by
  unfold crcStep
  split
  · exact Nat.xor_lt_two_pow (by omega) (by norm_num)
  · omega

lemma crcStepN_lt (n x : Nat) (hx : x < 2 ^ 32) : crcStepN n x < 2 ^ 32 := by
  induction n generalizing x with
  | zero => exact hx
  | succ n ih => exact ih _ (crcStep_lt x hx)

lemma crcFold_lt (bs : List Nat) (val : Nat) (hv : val < 2 ^ 32) :
    crcFold val bs < 2 ^ 32 := by
  induction bs generalizing val with
  | nil => exact hv
  | cons b bs ih =>
    apply ih
    apply Nat.xor_lt_two_pow
    · exact crcStepN_lt 8 _ (by
        have h1 : val % 256 < 256 := Nat.mod_lt _ (by norm_num)
        have h2 : b % 256 < 256 := Nat.mod_lt _ (by norm_num)
        have h3 : (val % 256) ^^^ (b % 256) < 256 := by
          have h256 : (256 : Nat) = 2 ^ 8 := by norm_num
          rw [h256] at h1 h2 ⊢
          exact Nat.xor_lt_two_pow h1 h2
        omega)
    · rw [Nat.shiftRight_eq_div_pow]
      have := Nat.div_le_self val (2 ^ 8)
      omega

lemma crc32_lt (bs : List Nat) : crc32 bs < 2 ^ 32 := by
  unfold crc32
  exact Nat.xor_lt_two_pow (crcFold_lt bs _ (by norm_num)) (by norm_num)

lemma getD_of_lt {α : Type} (l : List α) (i : Nat) (d : α) (h : i < l.length) :
    l.getD i d = l[i] := by
  rw [List.getD_eq_getElem?_getD, List.getElem?_eq_getElem h, Option.getD_some]

lemma getD_of_le {α : Type} (l : List α) (i : Nat) (d : α) (h : l.length ≤ i) :
    l.getD i d = d := by
  rw [List.getD_eq_getElem?_getD, List.getElem?_eq_none h, Option.getD_none]

lemma getD_append_of_lt {α : Type} (l1 l2 : List α) (d : α) (i : Nat)
    (h : i < l1.length) : (l1 ++ l2).getD i d = l1.getD i d := by
  induction l1 generalizing i with
  | nil => simp at h
  | cons a l ih =>
    cases i with
    | zero => rfl
    | succ i =>
      show (l ++ l2).getD i d = l.getD i d
      exact ih i (by simpa using h)

lemma getD_append_of_len {α : Type} (l1 l2 : List α) (d : α) (i : Nat) :
    (l1 ++ l2).getD (l1.length + i) d = l2.getD i d := by
  induction l1 with
  | nil => simp
  | cons a l ih =>
    have h : (a :: l).length + i = (l.length + i) + 1 := by
      simp only [List.length_cons]
      omega
    rw [h]
    show (l ++ l2).getD (l.length + i) d = l2.getD i d
    exact ih

/-! Facts about the framed byte sequence. -/
lemma frameBytes_length (p : Packet) (hpl : p.payload.length = p.len) :
    (frameBytes p).length = p.len + 5 := by
  simp only [frameBytes, le32, List.length_cons, List.length_append,
    List.length_nil, hpl]

lemma frameBytes_lt (p : Packet) (hlen : p.len ≤ 255)
    (hpb : ∀ b ∈ p.payload, b < 256) : ∀ b ∈ frameBytes p, b < 256 := by
  intro b hb
  unfold frameBytes le32 at hb
  simp only [List.mem_cons, List.mem_append] at hb
  rcases hb with (h | h) | h | h | h | h | h
  · omega
  · exact hpb b h
  · subst h; exact Nat.mod_lt _ (by norm_num)
  · subst h; exact Nat.mod_lt _ (by norm_num)
  · subst h; exact Nat.mod_lt _ (by norm_num)
  · subst h; exact Nat.mod_lt _ (by norm_num)
  · exact absurd h (List.not_mem_nil b)

lemma reassemble_encode {w : Nat} (hw : validWidth w) (p : Packet)
    (hlen : p.len ≤ 255) (hpl : p.payload.length = p.len)
    (hpb : ∀ b ∈ p.payload, b < 256) :
    reassemble w (encode w p) = fun k => (frameBytes p).getD k 0 := by
  funext k
  have hsz : 0 + (frameBytes p).length ≤ bufSize := by
    rw [frameBytes_length p hpl]
    unfold bufSize
    omega
  have h := reassembleAux_bytes hw (frameBytes p) 0 (fun _ => 0)
    (frameBytes_lt p hlen hpb) hsz (fun _ _ => rfl) k
  rw [Nat.zero_mul] at h
  unfold reassemble encode
  rw [h]
  by_cases hk : k < (frameBytes p).length
  · rw [if_pos (by omega), Nat.sub_zero]
  · rw [if_neg (by omega), getD_of_le _ _ _ (by omega)]

lemma frameBytes_getD_zero (p : Packet) : (frameBytes p).getD 0 0 = p.len := rfl

lemma frameBytes_getD_crc (p : Packet) (hpl : p.payload.length = p.len) (i : Nat) :
    (frameBytes p).getD (1 + p.len + i) 0
      = (le32 (crc32 (p.len :: p.payload))).getD i 0 := by
  have h1 : 1 + p.len + i = (p.payload.length + i) + 1 := by omega
  rw [h1]
  unfold frameBytes
  show (p.payload ++ le32 (crc32 (p.len :: p.payload))).getD (p.payload.length + i) 0 = _
  exact getD_append_of_len ..

lemma frameBytes_getD_payload (p : Packet) (hpl : p.payload.length = p.len)
    (i : Nat) (hi : i < p.len) :
    (frameBytes p).getD (1 + i) 0 = p.payload.getD i 0 := by
  have h1 : 1 + i = i + 1 := by omega
  rw [h1]
  unfold frameBytes
  show (p.payload ++ le32 (crc32 (p.len :: p.payload))).getD i 0 = _
  rw [getD_append_of_lt _ _ _ _ (by omega)]

lemma receivedCrc_frameBytes (p : Packet) (hpl : p.payload.length = p.len) :
    receivedCrc (fun k => (frameBytes p).getD k 0) p.len
      = crc32 (p.len :: p.payload) := by
  show (frameBytes p).getD (1 + p.len) 0
      + 2 ^ 8 * (frameBytes p).getD (2 + p.len) 0
      + 2 ^ 16 * (frameBytes p).getD (3 + p.len) 0
      + 2 ^ 24 * (frameBytes p).getD (4 + p.len) 0
      = crc32 (p.len :: p.payload)
  have g0 : (frameBytes p).getD (1 + p.len) 0
      = (le32 (crc32 (p.len :: p.payload))).getD 0 0 := by
    have h := frameBytes_getD_crc p hpl 0
    rw [show 1 + p.len + 0 = 1 + p.len by omega] at h
    exact h
  have g1 : (frameBytes p).getD (2 + p.len) 0
      = (le32 (crc32 (p.len :: p.payload))).getD 1 0 := by
    have h := frameBytes_getD_crc p hpl 1
    rw [show 1 + p.len + 1 = 2 + p.len by omega] at h
    exact h
  have g2 : (frameBytes p).getD (3 + p.len) 0
      = (le32 (crc32 (p.len :: p.payload))).getD 2 0 := by
    have h := frameBytes_getD_crc p hpl 2
    rw [show 1 + p.len + 2 = 3 + p.len by omega] at h
    exact h
  have g3 : (frameBytes p).getD (4 + p.len) 0
      = (le32 (crc32 (p.len :: p.payload))).getD 3 0 := by
    have h := frameBytes_getD_crc p hpl 3
    rw [show 1 + p.len + 3 = 4 + p.len by omega] at h
    exact h
  rw [g0, g1, g2, g3]
  have hclt : crc32 (p.len :: p.payload) < 2 ^ 32 := crc32_lt _
  unfold le32
  simp only [List.getD_cons_zero, List.getD_cons_succ]
  have e8 : (2 : Nat) ^ 8 = 256 := by norm_num
  have e16 : (2 : Nat) ^ 16 = 65536 := by norm_num
  have e24 : (2 : Nat) ^ 24 = 16777216 := by norm_num
  have e32 : (2 : Nat) ^ 32 = 4294967296 := by norm_num
  rw [e8, e16, e24]
  rw [e32] at hclt
  omega

lemma crcInput_frameBytes (p : Packet) (hpl : p.payload.length = p.len) :
    (List.range (1 + p.len)).map (fun k => (frameBytes p).getD k 0)
      = p.len :: p.payload := by
  apply List.ext_getElem
  · simp only [List.length_map, List.length_range, List.length_cons, hpl]
    omega
  · intro i h1 h2
    simp only [List.getElem_map, List.getElem_range]
    cases i with
    | zero => rfl
    | succ j =>
      have hj : j < p.len := by
        simp only [List.length_cons, hpl] at h2
        omega
      have h1j : 1 + j = j + 1 := by omega
      rw [List.getElem_cons_succ, ← h1j, frameBytes_getD_payload p hpl j hj]
      exact getD_of_lt _ _ _ (by omega)

lemma payload_frameBytes (p : Packet) (hpl : p.payload.length = p.len) :
    (List.range p.len).map (fun i => (frameBytes p).getD (1 + i) 0)
      = p.payload := by
  apply List.ext_getElem
  · simp only [List.length_map, List.length_range, hpl]
  · intro i h1 h2
    simp only [List.getElem_map, List.getElem_range]
    have hi : i < p.len := by
      simp only [List.length_map, List.length_range] at h1
      exact h1
    rw [frameBytes_getD_payload p hpl i hi]
    exact getD_of_lt _ _ _ (by omega)

/-- C1: Codec round-trip. For every packet with `len ≤ 255` (the maximum
payload) whose payload has exactly `len` bytes, and every
`symbol_width ∈ \x7b1, 2, 4, 8\x7d`, decoding (as `sofi_recv` does) the
symbol vector produced by encoding (as `sofi_send` does) returns exactly
the original packet, with no CRC mismatch. -/
theorem codec_roundtrip {w : Nat} (hw : validWidth w) (p : Packet)
    (hlen : p.len ≤ 255) (hpl : p.payload.length = p.len)
    (hpb : ∀ b ∈ p.payload, b < 256) :
    decode w (encode w p) = some p := by
  have hfun := reassemble_encode hw p hlen hpl hpb
  unfold decode
  simp only [hfun, frameBytes_getD_zero]
  rw [receivedCrc_frameBytes p hpl, crcInput_frameBytes p hpl, if_pos rfl,
    payload_frameBytes p hpl]

/-- Witness for `codec_roundtrip` at a concrete packet and width. -/
theorem codec_roundtrip_witness :
    decode 4 (encode 4 { len := 2, payload := [104, 105] }) =
      some { len := 2, payload := [104, 105] } :=
  codec_roundtrip (Or.inr (Or.inr (Or.inl rfl))) { len := 2, payload := [104, 105] }
    (by decide) (by decide) (by decide)

/-- C2: the `crc32` routine computes CRC-32 with reflected polynomial
`0xEDB88320`, initial value `0xFFFFFFFF` and final xor `0xFFFFFFFF`,
processed byte-at-a-time reflected: on byte inputs it agrees with the
direct reference algorithm with those parameters, and in particular the
CRC of the single byte `0x00` is `0xD202EF8D` (the value the frame for an
empty packet carries, `sofi_send` covering only `len ‖ payload`). -/
theorem crc32_parameters (bs : List Nat) (h : ∀ b ∈ bs, b < 256) :
    crc32 bs = refCrc32 bs ∧ crc32 [0] = 0xd202ef8d :=
  ⟨crc32_eq_refCrc32 bs h, by decide⟩

/-- Witness for `crc32_parameters` at the single byte `0x00`. -/
theorem crc32_parameters_witness :
    crc32 [0] = refCrc32 [0] ∧ crc32 [0] = 0xd202ef8d :=
  crc32_parameters [0] (by decide)

/-! ### C3: symbol expansion order and frame length -/
lemma symsOfByteAux_getD (w : Nat) :
    ∀ (n : Nat) (c j : Nat), j < n →
      (symsOfByteAux w n c).getD j 0 = (c >>> (w * j)) &&& ((1 <<< w) - 1) := by
  intro n
  induction n with
  | zero => intro c j hj; omega
  | succ n ih =>
    intro c j hj
    cases j with
    | zero =>
      show c &&& ((1 <<< w) - 1) = (c >>> (w * 0)) &&& ((1 <<< w) - 1)
      rw [Nat.mul_zero, Nat.shiftRight_zero]
    | succ j =>
      show (symsOfByteAux w n (c >>> w)).getD j 0 = _
      rw [ih (c >>> w) j (by omega)]
      congr 1
      rw [← Nat.shiftRight_add]
      congr 1
      rw [Nat.mul_succ]
      omega

lemma flatMap_symsOfByte_length (w : Nat) (bytes : List Nat) :
    (bytes.flatMap (symsOfByte w)).length = bytes.length * symbolsPerByte w := by
  induction bytes with
  | nil => simp
  | cons b bs ih =>
    rw [List.flatMap_cons, List.length_append, symsOfByte_length, ih,
      List.length_cons]
    ring

/-- C3: byte-to-symbol expansion is least-significant-symbol first: the
symbol at in-byte index `j` equals `(b >> (symbol_width * j)) & ((1 <<
symbol_width) - 1)`, and the encoded frame of a packet consists of
exactly `(1 + len + 4) * 8 / symbol_width` symbols. -/
theorem symbol_expansion {w : Nat} (hw : validWidth w) (p : Packet)
    (hpl : p.payload.length = p.len) :
    (∀ b j, j < symbolsPerByte w →
        (symsOfByte w b).getD j 0 = (b >>> (w * j)) &&& ((1 <<< w) - 1)) ∧
    (encode w p).length = (1 + p.len + 4) * (8 / w) := by
  constructor
  · intro b j hj
    exact symsOfByteAux_getD w (symbolsPerByte w) b j hj
  · unfold encode
    rw [flatMap_symsOfByte_length, frameBytes_length p hpl]
    show (p.len + 5) * symbolsPerByte w = (1 + p.len + 4) * symbolsPerByte w
    congr 1
    omega

/-- Witness for `symbol_expansion` at width 1 and a 1-byte packet. -/
theorem symbol_expansion_witness :
    (∀ b j, j < symbolsPerByte 1 →
        (symsOfByte 1 b).getD j 0 = (b >>> (1 * j)) &&& ((1 <<< 1) - 1)) ∧
    (encode 1 { len := 1, payload := [65] }).length = (1 + 1 + 4) * (8 / 1) :=
  symbol_expansion (Or.inl rfl) { len := 1, payload := [65] } (by decide)

/-! ### C4: short messages and the absent length check -/
/-- C4 counterexample: a raw message of 5 symbols at width 8 whose first
reassembled byte says `len = 1`, so the frame would need
`(1 + 1 + 4) * 1 = 6` symbols; the claim says such a message yields
`CrcMismatch`, but the code performs no length check: the CRC computed
over the zero-padded buffer happens to equal the zero-padded CRC field,
and the message is delivered as a packet. -/
theorem short_message_counterexample :
    reassemble 8 [1, 61, 175, 111, 170] 0 = 1 ∧
    ([1, 61, 175, 111, 170] : List Nat).length < (1 + 1 + 4) * symbolsPerByte 8 ∧
    decode 8 [1, 61, 175, 111, 170] = some { len := 1, payload := [61] } := by
  refine ⟨by decide, by decide, by decide⟩

/-- C4 (amended): a short message is dropped precisely when the CRC test
on the zero-padded reassembly fails: if the message has fewer than
`(1 + len + 4) * symbols_per_byte` symbols and the zero-padded received
CRC field differs from the CRC over the zero-padded `len ‖ payload`
bytes, `sofi_recv` yields `CrcMismatch` and drops it; the length
shortfall by itself forces nothing, as the code has no length check. -/
theorem short_message_rejection {w : Nat} (syms : List Nat) (len : Nat)
    (hlen : reassemble w syms 0 = len)
    (hshort : syms.length < (1 + len + 4) * symbolsPerByte w)
    (hcrc : receivedCrc (reassemble w syms) len
      ≠ crc32 ((List.range (1 + len)).map (reassemble w syms))) :
    decode w syms = none := by
  unfold decode
  simp only [hlen]
  rw [if_neg hcrc]

/-- Witness for `short_message_rejection`: the all-zero 4-symbol message
at width 8 is short (`len = 0` needs 5 symbols) and fails the CRC test. -/
theorem short_message_rejection_witness :
    reassemble 8 [0, 0, 0, 0] 0 = 0 ∧
    ([0, 0, 0, 0] : List Nat).length < (1 + 0 + 4) * symbolsPerByte 8 ∧
    decode 8 [0, 0, 0, 0] = none :=
  ⟨by decide, by decide,
    short_message_rejection [0, 0, 0, 0] 0 (by decide) (by decide) (by decide)⟩

lemma range_map_cons (f : Nat → Nat) (n : Nat) :
    (List.range (1 + n)).map f = f 0 :: (List.range n).map (fun i => f (1 + i)) := by
  apply List.ext_getElem
  · simp only [List.length_map, List.length_range, List.length_cons]
    omega
  · intro i h1 h2
    simp only [List.getElem_map, List.getElem_range]
    cases i with
    | zero => rfl
    | succ j =>
      rw [List.getElem_cons_succ]
      simp only [List.getElem_map, List.getElem_range]
      congr 1
      omega

/-- C5: `sofi_recv` delivers a packet for a dequeued raw message iff the
reassembled received CRC equals the CRC computed over the reassembled
`len` byte and payload; every delivered packet satisfies
`crc32 (len ‖ payload) = received_crc`; and a mismatching message is
dropped, the loop continuing with the rest instead of returning. -/
theorem recv_crc_filter (w : Nat) (syms : List Nat) :
    (∀ p, decode w syms = some p →
        crc32 (p.len :: p.payload)
          = receivedCrc (reassemble w syms) (reassemble w syms 0)) ∧
    (decode w syms = none ↔
        receivedCrc (reassemble w syms) (reassemble w syms 0)
          ≠ crc32 ((List.range (1 + reassemble w syms 0)).map (reassemble w syms))) ∧
    (∀ ms, decode w syms = none →
        sofiRecvLoop w (syms :: ms) = sofiRecvLoop w ms) := by
  refine ⟨?_, ?_, ?_⟩
  · intro p hp
    unfold decode at hp
    by_cases hc : receivedCrc (reassemble w syms) (reassemble w syms 0)
        = crc32 ((List.range (1 + reassemble w syms 0)).map (reassemble w syms))
    · simp only [if_pos hc] at hp
      have hp' := Option.some.inj hp
      subst hp'
      rw [hc]
      congr 1
      exact (range_map_cons (reassemble w syms) (reassemble w syms 0)).symm
    · simp only [if_neg hc] at hp
      exact Option.noConfusion hp
  · unfold decode
    by_cases hc : receivedCrc (reassemble w syms) (reassemble w syms 0)
        = crc32 ((List.range (1 + reassemble w syms 0)).map (reassemble w syms))
    · simp [hc]
    · simp [hc]
  · intro ms h
    simp [sofiRecvLoop, h]

/-- Witness for `recv_crc_filter` at a concrete message. -/
theorem recv_crc_filter_witness :
    (∀ p, decode 8 [0, 0, 0, 0, 0] = some p →
        crc32 (p.len :: p.payload)
          = receivedCrc (reassemble 8 [0, 0, 0, 0, 0]) (reassemble 8 [0, 0, 0, 0, 0] 0)) ∧
    (decode 8 [0, 0, 0, 0, 0] = none ↔
        receivedCrc (reassemble 8 [0, 0, 0, 0, 0]) (reassemble 8 [0, 0, 0, 0, 0] 0)
          ≠ crc32 ((List.range (1 + reassemble 8 [0, 0, 0, 0, 0] 0)).map
              (reassemble 8 [0, 0, 0, 0, 0]))) ∧
    (∀ ms, decode 8 [0, 0, 0, 0, 0] = none →
        sofiRecvLoop 8 ([0, 0, 0, 0, 0] :: ms) = sofiRecvLoop 8 ms) :=
  recv_crc_filter 8 [0, 0, 0, 0, 0]

lemma senderRun_succ (cfg : SenderConfig) (n : Nat) :
    ∀ d : SenderData,
      senderRun cfg d (n + 1)
        = ((senderStep cfg (senderRun cfg d n).1).1,
           (senderRun cfg d n).2 ++ [(senderStep cfg (senderRun cfg d n).1).2]) := by
  induction n with
  | zero => intro d; rfl
  | succ n ih =>
    intro d
    show ((senderRun cfg (senderStep cfg d).1 (n + 1)).1,
          (senderStep cfg d).2 :: (senderRun cfg (senderStep cfg d).1 (n + 1)).2) = _
    rw [ih (senderStep cfg d).1]
    rfl

lemma senderStep_of_transmitting (cfg : SenderConfig) (d : SenderData)
    (h : d.state = SendState.transmitting) :
    senderStep cfg d = senderTransmit cfg d false := by
  unfold senderStep
  rw [h]

lemma senderTransmit_mid (cfg : SenderConfig) (d : SenderData)
    (hlt : ¬ (((d.frame + 1 : Nat)) : ℚ) ≥ cfg.rate / cfg.baud) :
    senderTransmit cfg d false
      = ({ d with frame := d.frame + 1,
                  phase := phaseStep cfg d.symbol d.phase }, Sample.tone d.phase) := by
  unfold senderTransmit
  simp only [Bool.false_eq_true, false_or, if_false]
  rw [if_neg hlt]

lemma senderTransmit_next (cfg : SenderConfig) (d : SenderData)
    (hge : (((d.frame + 1 : Nat)) : ℚ) ≥ cfg.rate / cfg.baud)
    (hidx : d.index < d.msg.length) :
    senderTransmit cfg d false
      = ({ d with symbol := d.msg.getD d.index 0, index := d.index + 1, frame := 0,
                  phase := phaseStep cfg (d.msg.getD d.index 0) d.phase },
          Sample.tone d.phase) := by
  unfold senderTransmit
  simp only [Bool.false_eq_true, false_or, if_false]
  rw [if_pos hge, if_neg (by omega)]

lemma senderTransmit_fin (cfg : SenderConfig) (d : SenderData)
    (hge : (((d.frame + 1 : Nat)) : ℚ) ≥ cfg.rate / cfg.baud)
    (hidx : d.index ≥ d.msg.length) :
    senderTransmit cfg d false
      = ({ d with state := SendState.gap, frame := 0 }, Sample.silence) := by
  unfold senderTransmit
  simp only [Bool.false_eq_true, false_or, if_false]
  rw [if_pos hge, if_pos hidx]

lemma senderStep_gap_mid (cfg : SenderConfig) (d : SenderData)
    (h : d.state = SendState.gap)
    (hlt : ¬ (((d.frame + 1 : Nat)) : ℚ) ≥ interpacketGap cfg * cfg.rate) :
    senderStep cfg d = ({ d with frame := d.frame + 1 }, Sample.silence) := by
  unfold senderStep
  rw [h]
  rw [if_neg hlt]

lemma senderStep_gap_end (cfg : SenderConfig) (d : SenderData)
    (h : d.state = SendState.gap)
    (hge : (((d.frame + 1 : Nat)) : ℚ) ≥ interpacketGap cfg * cfg.rate) :
    senderStep cfg d
      = ({ d with frame := d.frame + 1, ring := d.ring.tail,
                  state := SendState.idle }, Sample.silence) := by
  unfold senderStep
  rw [h]
  rw [if_pos hge]

lemma senderRun_hold {cfg : SenderConfig} {N : Nat}
    (hN : ((N : Nat) : ℚ) = cfg.rate / cfg.baud) :
    ∀ (t : Nat) (d : SenderData),
      d.state = SendState.transmitting → d.frame = 0 → t < N →
      (senderRun cfg d t).1.state = SendState.transmitting ∧
      (senderRun cfg d t).1.symbol = d.symbol ∧
      (senderRun cfg d t).1.index = d.index ∧
      (senderRun cfg d t).1.msg = d.msg ∧
      (senderRun cfg d t).1.ring = d.ring ∧
      (senderRun cfg d t).1.frame = t ∧
      ∀ s ∈ (senderRun cfg d t).2, s ≠ Sample.silence := by
  intro t
  induction t with
  | zero =>
    intro d hst hfr _
    refine ⟨hst, rfl, rfl, rfl, rfl, hfr, ?_⟩
    intro s hs
    exact absurd hs (List.not_mem_nil s)
  | succ t ih =>
    intro d hst hfr htN
    obtain ⟨ist, isym, iidx, imsg, iring, ifr, ismp⟩ :=
      ih d hst hfr (by omega)
    rw [senderRun_succ]
    have hlt : ¬ ((((senderRun cfg d t).1.frame + 1 : Nat)) : ℚ)
        ≥ cfg.rate / cfg.baud := by
      rw [ifr, ← hN]
      push_neg
      exact_mod_cast htN
    rw [senderStep_of_transmitting cfg _ ist, senderTransmit_mid cfg _ hlt]
    refine ⟨ist, isym, iidx, imsg, iring, by rw [ifr], ?_⟩
    intro s hs
    rcases List.mem_append.mp hs with h | h
    · exact ismp s h
    · rcases List.mem_singleton.mp h with rfl
      intro hcon
      exact Sample.noConfusion hcon

lemma senderRun_gap {cfg : SenderConfig} {G : Nat}
    (hG : ((G : Nat) : ℚ) = interpacketGap cfg * cfg.rate) :
    ∀ (t : Nat) (d : SenderData),
      d.state = SendState.gap → d.frame = 0 → t < G →
      (senderRun cfg d t).1.state = SendState.gap ∧
      (senderRun cfg d t).1.frame = t ∧
      (senderRun cfg d t).1.ring = d.ring ∧
      (senderRun cfg d t).2 = List.replicate t Sample.silence := by
  intro t
  induction t with
  | zero =>
    intro d hst hfr _
    exact ⟨hst, hfr, rfl, rfl⟩
  | succ t ih =>
    intro d hst hfr htG
    obtain ⟨ist, ifr, iring, ismp⟩ := ih d hst hfr (by omega)
    rw [senderRun_succ]
    have hlt : ¬ ((((senderRun cfg d t).1.frame + 1 : Nat)) : ℚ)
        ≥ interpacketGap cfg * cfg.rate := by
      rw [ifr, ← hG]
      push_neg
      exact_mod_cast htG
    rw [senderStep_gap_mid cfg _ ist hlt]
    refine ⟨ist, by rw [ifr], iring, ?_⟩
    rw [ismp]
    rw [List.replicate_succ']

/-- C6 (amended): sender framing. With `sample_rate / baud = N` samples
per symbol and `interpacket_gap() * sample_rate = G` gap samples:
(1) a freshly loaded symbol is held: for `t < N` further steps the state
stays TRANSMITTING with the same symbol and frame counter `t`, every
emitted sample a tone; (2) when the frame counter expires with symbols
remaining, the next symbol is loaded for the next `N`-sample period;
(3) when it expires past the last symbol, the sender transitions to
INTERPACKET_GAP emitting `0.0`, with the send-ring read index NOT yet
advanced; (4) in INTERPACKET_GAP it emits `0.0` for `G` samples and only
then advances the read index by one and returns to IDLE. -/
theorem sender_framing {cfg : SenderConfig} {N G : Nat}
    (hN : ((N : Nat) : ℚ) = cfg.rate / cfg.baud)
    (hG : ((G : Nat) : ℚ) = interpacketGap cfg * cfg.rate)
    (hGpos : 0 < G) (d : SenderData) :
    (d.state = SendState.transmitting → d.frame = 0 → ∀ t < N,
      (senderRun cfg d t).1.state = SendState.transmitting ∧
      (senderRun cfg d t).1.symbol = d.symbol ∧
      (senderRun cfg d t).1.frame = t ∧
      ∀ s ∈ (senderRun cfg d t).2, s ≠ Sample.silence) ∧
    (d.state = SendState.transmitting →
      (((d.frame + 1 : Nat)) : ℚ) ≥ cfg.rate / cfg.baud →
      d.index < d.msg.length →
      senderStep cfg d
        = ({ d with symbol := d.msg.getD d.index 0, index := d.index + 1, frame := 0,
                    phase := phaseStep cfg (d.msg.getD d.index 0) d.phase },
            Sample.tone d.phase)) ∧
    (d.state = SendState.transmitting →
      (((d.frame + 1 : Nat)) : ℚ) ≥ cfg.rate / cfg.baud →
      d.index ≥ d.msg.length →
      senderStep cfg d
        = ({ d with state := SendState.gap, frame := 0 }, Sample.silence)) ∧
    (d.state = SendState.gap → d.frame = 0 →
      (senderRun cfg d G).2 = List.replicate G Sample.silence ∧
      (senderRun cfg d G).1.state = SendState.idle ∧
      (senderRun cfg d G).1.ring = d.ring.tail) := by
  refine ⟨?_, ?_, ?_, ?_⟩
  · intro hst hfr t htN
    obtain ⟨h1, h2, _, _, _, h6, h7⟩ := senderRun_hold hN t d hst hfr htN
    exact ⟨h1, h2, h6, h7⟩
  · intro hst hge hidx
    rw [senderStep_of_transmitting cfg d hst, senderTransmit_next cfg d hge hidx]
  · intro hst hge hidx
    rw [senderStep_of_transmitting cfg d hst, senderTransmit_fin cfg d hge hidx]
  · intro hst hfr
    obtain ⟨ist, ifr, iring, ismp⟩ :=
      senderRun_gap hG (G - 1) d hst hfr (by omega)
    have hge : ((((senderRun cfg d (G - 1)).1.frame + 1 : Nat)) : ℚ)
        ≥ interpacketGap cfg * cfg.rate := by
      rw [ifr, ← hG]
      have h : G - 1 + 1 = G := by omega
      rw [h]
    have hsucc : G = (G - 1) + 1 := by omega
    rw [hsucc, senderRun_succ, senderStep_gap_end cfg _ ist hge]
    refine ⟨?_, rfl, by rw [iring]⟩
    rw [ismp, List.replicate_succ']

/-- C6 counterexample: at the step after the last symbol the sender
transitions to INTERPACKET_GAP but does NOT advance the send-ring read
index: the ring still holds the message (it is advanced only at the end
of the gap, contrary to the claim). -/
theorem sender_gap_entry_counterexample :
    (senderStep gapEntrySenderConfig gapEntrySenderData).1.state = SendState.gap ∧
    (senderStep gapEntrySenderConfig gapEntrySenderData).1.ring
      = gapEntrySenderData.ring ∧
    gapEntrySenderData.ring ≠ [] := by
  have hstep : senderStep gapEntrySenderConfig gapEntrySenderData
      = ({ gapEntrySenderData with state := SendState.gap, frame := 0 },
          Sample.silence) := by
    rw [senderStep_of_transmitting _ _ rfl,
      senderTransmit_fin _ _ (by norm_num [gapEntrySenderData, gapEntrySenderConfig])
        (by decide)]
  rw [hstep]
  exact ⟨rfl, rfl, by decide⟩

/-- Witness for `sender_framing`: the concrete last-symbol expiry step. -/
theorem sender_framing_witness :
    senderStep gapEntrySenderConfig gapEntrySenderData
      = ({ gapEntrySenderData with state := SendState.gap, frame := 0 },
          Sample.silence) :=
  (@sender_framing gapEntrySenderConfig 8 16
      (by norm_num [gapEntrySenderConfig])
      (by norm_num [gapEntrySenderConfig, interpacketGap])
      (by norm_num) gapEntrySenderData).2.2.1
    rfl (by norm_num [gapEntrySenderData, gapEntrySenderConfig])
    (by decide)

/-- C10: sender phase continuity. While a message is being transmitted
(the sender is in TRANSMITTING and stays there), each step emits
`sin(phase)` at the pre-update phase, and the phase accumulator changes
only by adding `2π · freq[current_symbol] / sample_rate` and wrapping
into `[0, 2π)`. It is not reset when a new symbol is loaded at a symbol
boundary, so the emitted waveform's phase is continuous within and
across the symbols of one message. -/
theorem sender_phase_continuity (cfg : SenderConfig) (d : SenderData)
    (hd : d.state = SendState.transmitting)
    (hnext : (senderStep cfg d).1.state = SendState.transmitting) :
    (senderStep cfg d).2 = Sample.tone d.phase ∧
    (senderStep cfg d).1.phase
      = wrapPhase (d.phase
          + (2 * mPi * cfg.freqs ((senderStep cfg d).1.symbol)) / cfg.rate) := by
  rw [senderStep_of_transmitting cfg d hd] at hnext ⊢
  by_cases hge : (((d.frame + 1 : Nat)) : ℚ) ≥ cfg.rate / cfg.baud
  · by_cases hidx : d.index < d.msg.length
    · rw [senderTransmit_next cfg d hge hidx]
      exact ⟨rfl, rfl⟩
    · rw [senderTransmit_fin cfg d hge (by omega)] at hnext
      exact SendState.noConfusion hnext
  · rw [senderTransmit_mid cfg d hge]
    exact ⟨rfl, rfl⟩

/-- Witness for `sender_phase_continuity` at a concrete mid-symbol step. -/
theorem sender_phase_continuity_witness :
    (senderStep gapEntrySenderConfig contSenderData).2
      = Sample.tone contSenderData.phase ∧
    (senderStep gapEntrySenderConfig contSenderData).1.phase
      = wrapPhase (contSenderData.phase
          + (2 * mPi * gapEntrySenderConfig.freqs
              ((senderStep gapEntrySenderConfig contSenderData).1.symbol))
            / gapEntrySenderConfig.rate) :=
  sender_phase_continuity gapEntrySenderConfig contSenderData rfl
    (by rw [senderStep_of_transmitting _ _ rfl,
          senderTransmit_mid _ _ (by norm_num [contSenderData, gapEntrySenderConfig])]
        rfl)

/-- C7 counterexample: in LISTEN, a window classified as symbol 1 makes
the framer transition to DEMODULATE with a new empty raw message — the
detected symbol is NOT appended, so the message is `[]`, not `[1]` as
the claim requires. -/
theorem framer_keep_first_counterexample :
    (framerStep RecvState.listen [] (some 1)).1 = RecvState.demodulate ∧
    (framerStep RecvState.listen [] (some 1)).2.1 = [] ∧
    (framerStep RecvState.listen [] (some 1)).2.1 ≠ [1] := by
  exact ⟨rfl, rfl, by decide⟩

/-- C7 (amended): when the demodulator in LISTEN classifies a window's
strongest symbol as non-silence, it transitions to DEMODULATE and begins
a new, empty raw message; the detected symbol is discarded rather than
appended (the first symbol of the message comes from the next window). -/
theorem framer_carrier_detect (msg : List Nat) (s : Nat) :
    framerStep RecvState.listen msg (some s)
      = (RecvState.demodulate, [], none) := rfl

lemma selectLoop_succ (S : Nat → ℚ) (n : Nat) :
    selectLoop S (n + 1)
      = if S n > (selectLoop S n).2 then (some n, S n) else selectLoop S n := by
  unfold selectLoop
  rw [List.range_succ, List.foldl_append]
  rfl

lemma selectLoop_spec (S : Nat → ℚ) : ∀ n : Nat,
    100 ≤ (selectLoop S n).2 ∧
    (∀ j < n, S j ≤ (selectLoop S n).2) ∧
    ((selectLoop S n).1 = none → (selectLoop S n).2 = 100) ∧
    (∀ i, (selectLoop S n).1 = some i →
        i < n ∧ (selectLoop S n).2 = S i ∧ 100 < S i ∧ ∀ j < i, S j < S i) := by
  intro n
  induction n with
  | zero =>
    refine ⟨le_refl _, ?_, fun _ => rfl, ?_⟩
    · intro j hj
      exact absurd hj (Nat.not_lt_zero j)
    · intro i hi
      exact Option.noConfusion hi
  | succ n ih =>
    obtain ⟨ih1, ih2, ih3, ih4⟩ := ih
    rw [selectLoop_succ]
    by_cases hup : S n > (selectLoop S n).2
    · rw [if_pos hup]
      refine ⟨le_of_lt (lt_of_le_of_lt ih1 hup), ?_, ?_, ?_⟩
      · intro j hj
        rcases Nat.lt_succ_iff_lt_or_eq.mp hj with h | h
        · exact le_of_lt (lt_of_le_of_lt (ih2 j h) hup)
        · subst h
          exact le_refl _
      · intro hcon
        exact Option.noConfusion hcon
      · intro i hi
        have hin : i = n := (Option.some.inj hi).symm
        subst hin
        refine ⟨Nat.lt_succ_self i, rfl, lt_of_le_of_lt ih1 hup, ?_⟩
        intro j hj
        exact lt_of_le_of_lt (ih2 j hj) hup
    · rw [if_neg hup]
      refine ⟨ih1, ?_, ih3, ?_⟩
      · intro j hj
        rcases Nat.lt_succ_iff_lt_or_eq.mp hj with h | h
        · exact ih2 j h
        · subst h
          exact le_of_not_lt hup
      · intro i hi
        obtain ⟨g1, g2, g3, g4⟩ := ih4 i hi
        exact ⟨by omega, g2, g3, g4⟩

/-- C8: correlator decision rule. Each candidate symbol's strength is the
squared sine correlation plus squared cosine correlation at that
symbol's frequency; the window is classified as silence iff no
strength exceeds the fixed floor `100.0`; otherwise the selected symbol
has maximal strength, ties resolving to the lowest symbol index. -/
theorem correlator_decision (sinf cosf : ℚ → ℚ) (freqs : Nat → ℚ) (rate : ℚ)
    (n : Nat) (window : List ℚ) :
    (classifyWindow sinf cosf freqs rate n window = none ↔
      ∀ i < n, strengthOf sinf cosf (freqs i) rate window ≤ 100) ∧
    (∀ i, classifyWindow sinf cosf freqs rate n window = some i →
      i < n ∧ 100 < strengthOf sinf cosf (freqs i) rate window ∧
      (∀ j < n, strengthOf sinf cosf (freqs j) rate window
          ≤ strengthOf sinf cosf (freqs i) rate window) ∧
      (∀ j < n, strengthOf sinf cosf (freqs j) rate window
          = strengthOf sinf cosf (freqs i) rate window → i ≤ j)) := by
  have hspec := selectLoop_spec
      (fun i => strengthOf sinf cosf (freqs i) rate window) n
  obtain ⟨h1, h2, h3, h4⟩ := hspec
  unfold classifyWindow
  constructor
  · constructor
    · intro hnone i hi
      have := h3 hnone
      have := h2 i hi
      rw [h3 hnone] at this
      exact this
    · intro hall
      cases hsel : (selectLoop
          (fun i => strengthOf sinf cosf (freqs i) rate window) n).1 with
      | none => rfl
      | some i =>
        obtain ⟨g1, _, g3, _⟩ := h4 i hsel
        have := hall i g1
        simp only at this g3
        exact absurd g3 (by exact not_lt.mpr this)
  · intro i hi
    obtain ⟨g1, g2, g3, g4⟩ := h4 i hi
    refine ⟨g1, g3, ?_, ?_⟩
    · intro j hj
      have := h2 j hj
      rw [g2] at this
      exact this
    · intro j _ hje
      by_contra hlt
      have hji : j < i := by omega
      have := g4 j hji
      simp only at this hje
      rw [hje] at this
      exact lt_irrefl _ this

/-- Witness for `correlator_decision` at a concrete window. -/
theorem correlator_decision_witness :
    classifyWindow (fun _ => 1) (fun _ => 0) (fun _ => 500) 8000 2 [12]
        = none ↔
      ∀ i < 2, strengthOf (fun _ => 1) (fun _ => 0) ((fun _ => (500 : ℚ)) i)
          8000 [12] ≤ 100 :=
  (correlator_decision (fun _ => 1) (fun _ => 0) (fun _ => 500) 8000 2 [12]).1

/-- C9: receive queue invariant. The size never exceeds the capacity 32;
enqueue on a full queue drops the incoming message and leaves the queue
(and hence the queued contents and their order) unchanged, without
blocking; enqueue on a non-full queue appends at the tail; dequeue
(after its blocking wait on a non-empty queue) removes the oldest
message, the remaining contents shifting up — so delivery is FIFO. -/
theorem recv_queue_fifo (q : RecvQueue) (m : List Nat) (hcap : q.size ≤ 32) :
    (recvQueueEnqueue q m).size ≤ 32 ∧
    (q.size = 32 → recvQueueEnqueue q m = q) ∧
    (q.size < 32 →
      recvQueueList (recvQueueEnqueue q m) = recvQueueList q ++ [m]) ∧
    (∀ h : 0 < q.size,
      (recvQueueDequeue q h).1 :: recvQueueList (recvQueueDequeue q h).2
        = recvQueueList q) := by
  refine ⟨?_, ?_, ?_, ?_⟩
  · unfold recvQueueEnqueue recvQueueCap
    split
    · simp only []
      omega
    · exact hcap
  · intro hfull
    unfold recvQueueEnqueue recvQueueCap
    rw [if_neg (by omega)]
  · intro hroom
    unfold recvQueueEnqueue recvQueueCap recvQueueList
    rw [if_pos (by omega)]
    simp only [List.range_succ, List.map_append, List.map_cons, List.map_nil]
    congr 1
    · apply List.map_congr_left
      intro i hi
      have hilt : i < q.size := List.mem_range.mp hi
      apply Function.update_noteq
      intro hcon
      have hval : ((q.start : Nat) + i) % 32 = ((q.start : Nat) + q.size) % 32 :=
        congrArg Fin.val hcon
      omega
    · rw [Function.update_same]
  · intro hpos
    unfold recvQueueDequeue recvQueueList
    apply List.ext_getElem
    · simp only [List.length_cons, List.length_map, List.length_range]
      omega
    · intro i h1 h2
      cases i with
      | zero =>
        simp only [List.getElem_cons_zero, List.getElem_map, List.getElem_range]
        congr 1
        apply Fin.ext
        show (q.start : Nat) = ((q.start : Nat) + 0) % 32
        have := q.start.isLt
        omega
      | succ j =>
        simp only [List.getElem_cons_succ, List.getElem_map, List.getElem_range]
        congr 1
        apply Fin.ext
        show (((q.start : Nat) + 1) % 32 + j) % 32 = ((q.start : Nat) + (j + 1)) % 32
        omega

/-- Witness for `recv_queue_fifo`: enqueueing into the empty queue
appends at the tail. -/
theorem recv_queue_fifo_witness :
    recvQueueList (recvQueueEnqueue emptyRecvQueue [7])
      = recvQueueList emptyRecvQueue ++ [[7]] :=
  (recv_queue_fifo emptyRecvQueue [7] (by norm_num [emptyRecvQueue])).2.2.1
    (by norm_num [emptyRecvQueue])

end Sofi
